import Mathlib

/-!
# s3kv: hashed object-storage keys

A shallow embedding of `s3kv.go` (package `s3kv`) and proofs about it.

Conventions of the embedding:

* a Go `byte` is a `Fin 256`; `[]byte` and `string` are `List Byte`
  (a Go string is an immutable byte sequence);
* `uint32` / `uint64` values are natural numbers, and every arithmetic step the
  source performs on them is followed by an explicit `% 2 ^ 32` / `% 2 ^ 64`;
* a Go function value that may be `nil` is an `Option`; calling `nil` is a
  run-time panic, modelled as the result `none`;
* a non-nil `HashOption` is the total update it performs on the fields of the
  configuration it is handed, with byte slices as values; the part on calls
  through memory refines this: there a slice is a reference to a backing
  array, the receiver's copy shares it, and an option may write any memory;
* `md5.Sum` of Go's `crypto/md5` is the MD5 function of RFC 1321, written out
  here and checked against the digests the test suite relies on.
-/

namespace S3kv

/-! ## Data model -/

/-- A Go `byte`. -/
abbrev Byte := Fin 256

/-- The bytes of an ASCII string literal. -/
def ascii (s : String) : List Byte :=
  s.toList.map fun ch => Fin.ofNat ch.toNat

/-- Width of the Go type `uint32`. -/
def uint32Size : Nat := 2 ^ 32

/-- Width of the Go type `uint64`. -/
def uint64Size : Nat := 2 ^ 64

/-- Go `Segment`: a key and the flag saying whether it is written hashed. -/
structure Segment where
  Key : List Byte
  Hash : Bool
deriving DecidableEq

/-! ## ReduceBytes -/

/-- One iteration of the loop body of `ReduceBytes` (lines 103-106), on the
`uint64` accumulator `r`, with `m : uint32` and the current byte `x`. -/
def reduceStep (m : Nat) (r : Nat) (x : Byte) : Nat :=
  -- r *= 256 % (uint64(m) + 1)
  let r := (r * (256 % ((m + 1) % uint64Size))) % uint64Size
  -- r %= uint64(m) + 1
  let r := r % ((m + 1) % uint64Size)
  -- r += uint64(b[i]) % (uint64(m) + 1)
  let r := (r + x.val % ((m + 1) % uint64Size)) % uint64Size
  -- r %= uint64(m) + 1
  r % ((m + 1) % uint64Size)

/-- The loop `for i := range b` of `ReduceBytes`, from accumulator `r`. -/
def reduceLoop (m : Nat) : Nat → List Byte → Nat
  | r, [] => r
  | r, x :: rest => reduceLoop m (reduceStep m r x) rest

/-- Go `ReduceBytes`. `var m uint32; m--` wraps to `2^32 - 1`; the result is
the conversion `uint32(r)`. -/
def ReduceBytes (b : List Byte) : Nat :=
  let m : Nat := (0 + uint32Size - 1) % uint32Size
  let r : Nat := reduceLoop m 0 b
  r % uint32Size

/-- Horner fold of the specification: `acc := (acc * 256 + x) mod 2^32`, left
to right, from 0. -/
def hornerFold (b : List Byte) : Nat :=
  b.foldl (fun acc x => (acc * 256 + x.val) % 2 ^ 32) 0

/-- Value of a byte sequence read as a big-endian base-256 numeral. -/
def bigEndian (b : List Byte) : Nat :=
  b.foldl (fun acc x => acc * 256 + x.val) 0

/-- Big-endian unsigned 32-bit interpretation of four bytes. -/
def beUint32 (b0 b1 b2 b3 : Byte) : Nat :=
  b0.val * 2 ^ 24 + b1.val * 2 ^ 16 + b2.val * 2 ^ 8 + b3.val

/-! ## PaddedHex -/

/-- Digit table `digits` of Go's `strconv` package. -/
def digits : List Byte := ascii "0123456789abcdefghijklmnopqrstuvwxyz"

/-- Digit loop of `strconv.formatBits` for a base that is a power of two
(`for u >= b { a[i] = digits[u & (b-1)]; u >>= shift }; a[i] = digits[u]`),
writing the digits of `u` in front of `a`. -/
def formatBits (base : Nat) (u : Nat) (a : List Byte) : List Byte :=
  if 2 ≤ base ∧ base ≤ u then
    formatBits base (u / base) (digits.getD (u % base) 0 :: a)
  else
    digits.getD u 0 :: a
termination_by u
decreasing_by exact Nat.div_lt_self (by omega) (by omega)

/-- Go `strconv.FormatUint(i, base)` for a `uint64` value `i`. -/
def FormatUint (i : Nat) (base : Nat) : List Byte :=
  formatBits base i []

/-- The loop `for ; m > 16; m = (m / 16) + (m % 16) { l++ }` of `PaddedHex`, on
the `uint64` variable `m` and the `int` variable `l`; returns both at exit. -/
def widthLoop (m : Nat) (l : Int) : Nat × Int :=
  if 16 < m then
    widthLoop ((m / 16 + m % 16) % uint64Size) (l + 1)
  else
    (m, l)
termination_by m
decreasing_by
  have := Nat.mod_le (m / 16 + m % 16) uint64Size
  omega

/-- Go `strings.Repeat` of a one-byte string, which `PaddedHex` calls with a
positive count only. -/
def Repeat (x : Byte) (count : Int) : List Byte :=
  List.replicate count.toNat x

/-- The bucket count `m := uint64(max) + 1` of `PaddedHex`. -/
def bucketCount (max : Nat) : Nat :=
  (max % uint64Size + 1) % uint64Size

/-- Go `PaddedHex(value, max)` for `uint32` arguments. -/
def PaddedHex (value max : Nat) : List Byte :=
  let m : Nat := bucketCount max
  let result := FormatUint (value % uint64Size % m) 16
  -- l := 1; for ; m > 16; ... { l++ }
  let l : Int := (widthLoop m 1).2
  -- l -= len(result)
  let l : Int := l - (result.length : Int)
  if l > 0 then Repeat (48 : Byte) l ++ result else result

/-- Digit width of the specification for a bucket count: `width` starts at 1;
while `remaining > 16`, `width` grows by one and
`remaining := remaining div 16 + remaining mod 16`. -/
def digitWidth (remaining : Nat) : Nat :=
  if 16 < remaining then digitWidth (remaining / 16 + remaining % 16) + 1 else 1
termination_by remaining
decreasing_by omega

/-- A lowercase hexadecimal digit: `0`-`9` or `a`-`f`. -/
def isLowerHex (x : Byte) : Bool :=
  (48 ≤ x.val && x.val ≤ 57) || (97 ≤ x.val && x.val ≤ 102)

/-- Value of a hexadecimal digit character. -/
def hexValue (x : Byte) : Nat :=
  if x.val ≤ 57 then x.val - 48 else x.val - 87

/-- Reading a string as a base-16 numeral, most significant digit first. -/
def parseHex (s : List Byte) : Nat :=
  s.foldl (fun acc x => acc * 16 + hexValue x) 0

/-- Number of hexadecimal digits needed to write `n` (one digit for 0). -/
def hexDigitCount (n : Nat) : Nat :=
  Nat.log 16 n + 1

/-! ## HashConfig -/

/-- Go `HashConfig`. `HashFunc` is a function value and may be `nil`. -/
structure HashConfig where
  Separator : List Byte
  Max : Nat
  HashFunc : Option (List Byte → List Byte)

/-- Go `HashOption`, a `func(config *HashConfig)` that may be `nil`; a non-nil
option is the update it performs on the configuration it points to. -/
abbrev HashOption := Option (HashConfig → HashConfig)

/-- Go `(c *HashConfig) Apply(opts...)`: the configuration `*c` after the loop,
or `none` when a `nil` function value is called. -/
def HashConfig.Apply (c : HashConfig) : List HashOption → Option HashConfig
  | [] => some c
  | opt :: rest =>
    if opt.isNone then
      -- if opt == nil { continue }
      HashConfig.Apply c rest
    else
      -- opt(c)
      match opt with
      | none => none
      | some f => HashConfig.Apply (f c) rest

/-- The loop `for i, seg := range path` of `HashConfig.Hash`, from index `i`
with the bytes written so far in `buffer`. -/
def hashLoop (c : HashConfig) : Nat → List Segment → List Byte → Option (List Byte)
  | _, [], buffer => some buffer
  | i, seg :: rest, buffer =>
    let buffer := if i ≠ 0 then buffer ++ c.Separator else buffer
    if !seg.Hash then
      hashLoop c (i + 1) rest (buffer ++ seg.Key)
    else
      match c.HashFunc with
      | none => none
      | some f => hashLoop c (i + 1) rest (buffer ++ PaddedHex (ReduceBytes (f seg.Key)) c.Max)

/-- Go `(c HashConfig) Hash(path, opts...)`, on the receiver's own copy `c`. -/
def HashConfig.Hash (c : HashConfig) (path : List Segment) (opts : List HashOption) :
    Option (List Byte) :=
  match c.Apply opts with
  | none => none
  | some c => hashLoop c 0 path []

/-- The option list with its `nil` entries removed. -/
def dropNil (opts : List HashOption) : List HashOption :=
  opts.filter fun opt => opt.isSome

/-- Left-to-right fold of the non-nil options over a configuration. -/
def foldOptions (c : HashConfig) (opts : List HashOption) : HashConfig :=
  (opts.filterMap id).foldl (fun acc f => f acc) c

/-- An option that sets `Max`, as `oneChar` of the test suite does. -/
def setMax (a : Nat) : HashOption :=
  some fun config => { config with Max := a }

/-- Rendering of one segment under configuration `c` with digest `f`: the key
verbatim, or the padded hexadecimal bucket of its digest. -/
def render (c : HashConfig) (f : List Byte → List Byte) (seg : Segment) : List Byte :=
  if seg.Hash then PaddedHex (ReduceBytes (f seg.Key)) c.Max else seg.Key

/-- The key of the specification: the concatenation of the segments'
renderings, the one at index `i` preceded by the separator exactly when
`0 < i`. -/
def joined (c : HashConfig) (f : List Byte → List Byte) (path : List Segment) : List Byte :=
  (path.enum.map fun entry =>
    (if 0 < entry.1 then c.Separator else []) ++ render c f entry.2).flatten

/-! ## Calls through memory

The receiver of `Hash` is copied field by field, so the copy of `Separator` is
a slice header that points to the same backing array as the caller's. Here
slices are references into a store of byte arrays, and an option may write
both the configuration it is handed and the byte arrays. -/

/-- Backing arrays of byte slices; an array is addressed by its index. -/
abbrev Arrays := List (List Byte)

/-- A Go slice header: the backing array, the offset of the first element in
it, and the length (the capacity plays no part, nothing is appended). -/
structure Slice where
  array : Nat
  off : Nat
  len : Nat
deriving DecidableEq

/-- The bytes a slice denotes in the given arrays. -/
def readSlice (α : Arrays) (s : Slice) : List Byte :=
  ((α.getD s.array []).drop s.off).take s.len

/-- The assignment `s[i] = x` through a slice (an index within its length). -/
def writeSlice (α : Arrays) (s : Slice) (i : Nat) (x : Byte) : Arrays :=
  α.set s.array ((α.getD s.array []).set (s.off + i) x)

/-- Go `HashConfig` as it lies in memory: `Separator` is a slice header. -/
structure HashConfigRef where
  Separator : Slice
  Max : Nat
  HashFunc : Option (List Byte → List Byte)

/-- The configuration a stored `HashConfig` denotes: its separator bytes read
from the arrays. -/
def HashConfigRef.view (α : Arrays) (c : HashConfigRef) : HashConfig :=
  { Separator := readSlice α c.Separator, Max := c.Max, HashFunc := c.HashFunc }

/-- Memory: the byte arrays and the cells holding `HashConfig` structs; a
`*HashConfig` is a cell index. -/
structure Memory where
  arrays : Arrays
  configs : List HashConfigRef

/-- Go `HashOption` acting on memory: a non-nil option is called with the
pointer to a configuration and returns the memory as it leaves it; it may
write anything it can reach. -/
abbrev RefOption := Option (Memory → Nat → Memory)

/-- The method `(c *HashConfig) Apply` called on the pointer `p`: each non-nil
option is called with `p`. -/
def applyAt (μ : Memory) (p : Nat) : List RefOption → Option Memory
  | [] => some μ
  | opt :: rest =>
    if opt.isNone then
      -- if opt == nil { continue }
      applyAt μ p rest
    else
      -- opt(c)
      match opt with
      | none => none
      | some f => applyAt (f μ p) p rest

/-- The method `(c HashConfig) Hash` called on the configuration stored in cell
`p`. The value receiver is a field-by-field copy of that cell in a fresh cell
`q`, so its `Separator` shares the backing array; the body's
`c.Apply(opts...)` takes the address of the copy, and the loop reads the copy.
Returns the memory after the call together with the returned bytes. -/
def hashCall (μ : Memory) (p : Nat) (path : List Segment) (opts : List RefOption) :
    Option (Memory × List Byte) :=
  match μ.configs[p]? with
  | none => none
  | some c =>
    let q := μ.configs.length
    match applyAt { arrays := μ.arrays, configs := μ.configs ++ [c] } q opts with
    | none => none
    | some μ' =>
      match μ'.configs[q]? with
      | none => none
      | some c' => (hashLoop (c'.view μ'.arrays) 0 path []).map fun out => (μ', out)

/-- An option that writes only the configuration it is handed and memory it
allocates itself: every byte array and every other configuration cell that
exists when it is called is left as it is. -/
def writesOnlyTarget (opt : RefOption) : Prop :=
  ∀ f, opt = some f → ∀ (μ : Memory) (p : Nat),
    μ.arrays <+: (f μ p).arrays
      ∧ μ.configs.length ≤ (f μ p).configs.length
      ∧ ∀ j, j < μ.configs.length → j ≠ p → (f μ p).configs[j]? = μ.configs[j]?

/-- The option `func(c *HashConfig) { c.Separator[0] = x }`. -/
def writeSeparator (x : Byte) : RefOption :=
  some fun μ p =>
    match μ.configs[p]? with
    | none => μ
    | some c => { arrays := writeSlice μ.arrays c.Separator 0 x, configs := μ.configs }

/-- The option `func(c *HashConfig) { c.Separator = []byte{x} }`, which
allocates a new array. -/
def setSeparator (x : Byte) : RefOption :=
  some fun μ p =>
    match μ.configs[p]? with
    | none => μ
    | some c =>
      { arrays := μ.arrays ++ [[x]],
        configs := μ.configs.set p { c with Separator := ⟨μ.arrays.length, 0, 1⟩ } }

/-- A stored configuration whose separator is the first byte of array 0. -/
def slashConfig : HashConfigRef :=
  { Separator := ⟨0, 0, 1⟩, Max := 4095, HashFunc := none }

/-- A memory with one configuration, `{Separator: []byte("/"), Max: 4095}`,
whose separator is the only byte array. -/
def slashMemory : Memory :=
  { arrays := [ascii "/"], configs := [slashConfig] }

/-- The path of the two raw segments `a` and `b`. -/
def pathAB : List Segment :=
  [⟨ascii "a", false⟩, ⟨ascii "b", false⟩]

/-! ## MD5 (Go `crypto/md5`, RFC 1321) -/

/-- Per-step left-rotation amounts of MD5 (RFC 1321). -/
def md5Shifts : List Nat :=
  [7, 12, 17, 22, 7, 12, 17, 22, 7, 12, 17, 22, 7, 12, 17, 22,
   5, 9, 14, 20, 5, 9, 14, 20, 5, 9, 14, 20, 5, 9, 14, 20,
   4, 11, 16, 23, 4, 11, 16, 23, 4, 11, 16, 23, 4, 11, 16, 23,
   6, 10, 15, 21, 6, 10, 15, 21, 6, 10, 15, 21, 6, 10, 15, 21]

/-- Sine table of MD5: entry `i` is `floor(2^32 * |sin(i + 1)|)`. -/
def md5Table : List Nat :=
  [3614090360, 3905402710, 606105819, 3250441966, 4118548399, 1200080426, 2821735955, 4249261313, 1770035416, 2336552879, 4294925233, 2304563134, 1804603682, 4254626195, 2792965006, 1236535329, 4129170786, 3225465664, 643717713, 3921069994, 3593408605, 38016083, 3634488961, 3889429448, 568446438, 3275163606, 4107603335, 1163531501, 2850285829, 4243563512, 1735328473, 2368359562, 4294588738, 2272392833, 1839030562, 4259657740, 2763975236, 1272893353, 4139469664, 3200236656, 681279174, 3936430074, 3572445317, 76029189, 3654602809, 3873151461, 530742520, 3299628645, 4096336452, 1126891415, 2878612391, 4237533241, 1700485571, 2399980690, 4293915773, 2240044497, 1873313359, 4264355552, 2734768916, 1309151649, 4149444226, 3174756917, 718787259, 3951481745]

/-- Left rotation of a 32-bit word. -/
def rotl32 (x s : Nat) : Nat :=
  ((x <<< s) ||| (x >>> (32 - s))) % 2 ^ 32

/-- Bitwise complement of a 32-bit word. -/
def not32 (x : Nat) : Nat :=
  x ^^^ 4294967295

/-- The state of MD5: four 32-bit words. -/
structure Md5State where
  a : Nat
  b : Nat
  c : Nat
  d : Nat
deriving DecidableEq

/-- Step `i` (0..63) of the MD5 compression function on the block `M` of
sixteen words. -/
def md5Step (M : List Nat) (st : Md5State) (i : Nat) : Md5State :=
  let f : Nat :=
    if i < 16 then (st.b &&& st.c) ||| (not32 st.b &&& st.d)
    else if i < 32 then (st.d &&& st.b) ||| (not32 st.d &&& st.c)
    else if i < 48 then st.b ^^^ st.c ^^^ st.d
    else st.c ^^^ (st.b ||| not32 st.d)
  let g : Nat :=
    if i < 16 then i
    else if i < 32 then (5 * i + 1) % 16
    else if i < 48 then (3 * i + 5) % 16
    else (7 * i) % 16
  let t : Nat := (f + st.a + md5Table.getD i 0 + M.getD g 0) % 2 ^ 32
  ⟨st.d, (st.b + rotl32 t (md5Shifts.getD i 0)) % 2 ^ 32, st.b, st.c⟩

/-- Little-endian 32-bit words of a byte block. -/
def leWords : List Byte → List Nat
  | b0 :: b1 :: b2 :: b3 :: rest =>
    (b0.val + b1.val * 2 ^ 8 + b2.val * 2 ^ 16 + b3.val * 2 ^ 24) :: leWords rest
  | _ => []

/-- Little-endian bytes of the low `n` bytes of a number. -/
def leBytes : Nat → Nat → List Byte
  | 0, _ => []
  | n + 1, x => Fin.ofNat (x % 256) :: leBytes n (x / 256)

/-- MD5 compression of one 64-byte block. -/
def md5Block (st : Md5State) (block : List Byte) : Md5State :=
  let M := leWords block
  let r := (List.range 64).foldl (md5Step M) st
  ⟨(st.a + r.a) % 2 ^ 32, (st.b + r.b) % 2 ^ 32, (st.c + r.c) % 2 ^ 32, (st.d + r.d) % 2 ^ 32⟩

/-- MD5 padding: a one bit, zeros up to 56 mod 64, then the bit length as a
64-bit little-endian number. -/
def md5Pad (b : List Byte) : List Byte :=
  b ++ [128] ++ List.replicate ((119 - b.length % 64) % 64) 0 ++ leBytes 8 (b.length * 8 % 2 ^ 64)

/-- Go `md5.Sum`: the 16-byte MD5 digest. -/
def md5Sum (b : List Byte) : List Byte :=
  let p := md5Pad b
  let st := (List.range (p.length / 64)).foldl
    (fun st k => md5Block st ((p.drop (64 * k)).take 64))
    ⟨1732584193, 4023233417, 2562383102, 271733878⟩
  leBytes 4 st.a ++ leBytes 4 st.b ++ leBytes 4 st.c ++ leBytes 4 st.d

/-- Each pair of hexadecimal digit characters as one byte. -/
def hexPairs : List Byte → List Byte
  | hi :: lo :: rest => Fin.ofNat (hexValue hi * 16 + hexValue lo) :: hexPairs rest
  | _ => []

/-- The bytes written by a string of hexadecimal digit pairs. -/
def hexBytes (s : String) : List Byte :=
  hexPairs (ascii s)

/-! ## The default configuration -/

/-- Go `HashMD5`: the md5 sum of `b` as a slice. -/
def HashMD5 (b : List Byte) : List Byte :=
  md5Sum b

/-- Go `Config`, which embeds a `*HashConfig`. -/
structure Config where
  HashConfig : HashConfig

/-- Go `DefaultConfig()`. -/
def DefaultConfig : Config :=
  { HashConfig := { Separator := ascii "/", Max := 4095, HashFunc := some HashMD5 } }

/-- Go package-level `Hash(path, opts...)`. -/
def Hash (path : List Segment) (opts : List HashOption) : Option (List Byte) :=
  DefaultConfig.HashConfig.Hash path opts

/-! ## Loops as bounded iterations and over unbounded integers -/

/-- The loop body of `ReduceBytes` computed over unbounded integers: the same
four statements without the `uint64` wrap-around. -/
def reduceStepExact (m : Nat) (r : Nat) (x : Byte) : Nat :=
  let r := r * (256 % (m + 1))
  let r := r % (m + 1)
  let r := r + x.val % (m + 1)
  r % (m + 1)

/-- The loop of `ReduceBytes` over unbounded integers. -/
def reduceLoopExact (m : Nat) : Nat → List Byte → Nat
  | r, [] => r
  | r, x :: rest => reduceLoopExact m (reduceStepExact m r x) rest

/-- The values the accumulator `r` of `ReduceBytes` has on entry to each
iteration over `b`, followed by its final value. -/
def reduceTrace (m : Nat) : Nat → List Byte → List Nat
  | r, [] => [r]
  | r, x :: rest => r :: reduceTrace m (reduceStep m r x) rest

/-- The width loop of `PaddedHex` run for at most `fuel` iterations: `none`
when the guard `m > 16` still holds after `fuel` iterations. -/
def widthLoopFuel : Nat → Nat → Int → Option (Nat × Int)
  | fuel, m, l =>
    if 16 < m then
      match fuel with
      | 0 => none
      | fuel + 1 => widthLoopFuel fuel ((m / 16 + m % 16) % uint64Size) (l + 1)
    else
      some (m, l)

/-! ## Test vectors of the repository's test suite -/

theorem ReduceBytes_test_vectors :
    ReduceBytes [] = 0 ∧ ReduceBytes [0] = 0 ∧ ReduceBytes [1] = 1 ∧ ReduceBytes [105] = 105
      ∧ ReduceBytes [255] = 255 ∧ ReduceBytes (List.replicate 17 255) = 4294967295
      ∧ ReduceBytes [0, 13, 236, 11] = 912395 := by
  decide

/-! ## ReduceBytes: proofs -/

theorem reduceStep_eq (r : Nat) (x : Byte) :
    reduceStep ((0 + uint32Size - 1) % uint32Size) r x = (r * 256 + x.val) % 2 ^ 32 := by
  have hx := x.isLt
  simp only [reduceStep, uint32Size, uint64Size]
  norm_num

theorem reduceLoop_eq_foldl (r : Nat) (b : List Byte) :
    reduceLoop ((0 + uint32Size - 1) % uint32Size) r b
      = b.foldl (fun acc x => (acc * 256 + x.val) % 2 ^ 32) r := by
  induction b generalizing r with
  | nil => rfl
  | cons x rest ih => simp only [reduceLoop, List.foldl_cons, reduceStep_eq, ih]

theorem hornerFold_foldl_lt (r : Nat) (b : List Byte) (hr : r < 2 ^ 32) :
    b.foldl (fun acc x => (acc * 256 + x.val) % 2 ^ 32) r < 2 ^ 32 := by
  induction b generalizing r with
  | nil => simpa using hr
  | cons x rest ih =>
    simp only [List.foldl_cons]
    exact ih _ (Nat.mod_lt _ (by norm_num))

theorem hornerFold_lt (b : List Byte) : hornerFold b < 2 ^ 32 :=
  hornerFold_foldl_lt 0 b (by norm_num)

theorem ReduceBytes_eq_hornerFold (b : List Byte) : ReduceBytes b = hornerFold b := by
  unfold ReduceBytes
  simp only [reduceLoop_eq_foldl]
  exact Nat.mod_eq_of_lt (hornerFold_lt b)

theorem hornerFold_foldl_mod (r : Nat) (b : List Byte) :
    b.foldl (fun acc x => (acc * 256 + x.val) % 2 ^ 32) (r % 2 ^ 32)
      = (b.foldl (fun acc x => acc * 256 + x.val) r) % 2 ^ 32 := by
  induction b generalizing r with
  | nil => rfl
  | cons x rest ih =>
    simp only [List.foldl_cons]
    have hstep : (r % 2 ^ 32 * 256 + x.val) % 2 ^ 32 = (r * 256 + x.val) % 2 ^ 32 := by omega
    rw [← ih, hstep]

theorem hornerFold_eq_bigEndian_mod (b : List Byte) : hornerFold b = bigEndian b % 2 ^ 32 := by
  have h := hornerFold_foldl_mod 0 b
  simpa [hornerFold, bigEndian] using h

theorem bigEndian_foldl (r : Nat) (b : List Byte) :
    b.foldl (fun acc x => acc * 256 + x.val) r = r * 256 ^ b.length + bigEndian b := by
  induction b generalizing r with
  | nil => simp [bigEndian]
  | cons x rest ih =>
    simp only [bigEndian, List.foldl_cons, List.length_cons]
    rw [ih, ih (0 * 256 + x.val)]
    ring

theorem bigEndian_append (p b : List Byte) :
    bigEndian (p ++ b) = bigEndian p * 256 ^ b.length + bigEndian b := by
  unfold bigEndian
  rw [List.foldl_append, bigEndian_foldl]
  rfl

theorem bigEndian_lt (b : List Byte) : bigEndian b < 256 ^ b.length := by
  induction b using List.reverseRecOn with
  | nil => simp [bigEndian]
  | append_singleton l x ih =>
    rw [bigEndian_append]
    have hx := x.isLt
    have : bigEndian [x] = x.val := by simp [bigEndian]
    simp only [List.length_append, List.length_singleton, pow_succ, this, pow_zero, one_mul,
      pow_one]
    nlinarith

theorem ReduceBytes_append_of_four_le (p b : List Byte) (h : 4 ≤ b.length) :
    ReduceBytes (p ++ b) = ReduceBytes b := by
  simp only [ReduceBytes_eq_hornerFold, hornerFold_eq_bigEndian_mod, bigEndian_append]
  obtain ⟨k, hk⟩ : ∃ k, b.length = 4 + k := ⟨b.length - 4, by omega⟩
  rw [hk, pow_add]
  have : bigEndian p * (256 ^ 4 * 256 ^ k) = 2 ^ 32 * (bigEndian p * 256 ^ k) := by
    norm_num
    ring
  rw [this, Nat.mul_add_mod]

theorem list_length_four {α : Type} (l : List α) (h : l.length = 4) :
    ∃ a b c d, l = [a, b, c, d] := by
  match l, h with
  | [a, b, c, d], _ => exact ⟨a, b, c, d, rfl⟩

theorem bigEndian_four (b0 b1 b2 b3 : Byte) :
    bigEndian [b0, b1, b2, b3] = beUint32 b0 b1 b2 b3 := by
  simp only [bigEndian, beUint32, List.foldl_cons, List.foldl_nil]
  ring

theorem ReduceBytes_eq_bigEndian_of_length_four (b : List Byte) (h : b.length = 4) :
    ReduceBytes b = bigEndian b := by
  rw [ReduceBytes_eq_hornerFold, hornerFold_eq_bigEndian_mod]
  apply Nat.mod_eq_of_lt
  have := bigEndian_lt b
  rw [h] at this
  calc bigEndian b < 256 ^ 4 := this
    _ = 2 ^ 32 := by norm_num

/-- C1: `ReduceBytes` is the Horner fold `acc := (acc * 256 + x) mod 2^32` over
the bytes from left to right starting at 0, which is the big-endian base-256
value of the input modulo `2^32`; the empty input gives 0 and a single byte
gives that byte. -/
theorem ReduceBytes_is_horner_fold (b : List Byte) :
    ReduceBytes b = hornerFold b
      ∧ ReduceBytes b = bigEndian b % 2 ^ 32
      ∧ ReduceBytes [] = 0
      ∧ ∀ x : Byte, ReduceBytes [x] = x.val := by
  refine ⟨ReduceBytes_eq_hornerFold b, ?_, by decide, ?_⟩
  · rw [ReduceBytes_eq_hornerFold, hornerFold_eq_bigEndian_mod]
  · intro x
    rw [ReduceBytes_eq_hornerFold]
    have hx := x.isLt
    simp only [hornerFold, List.foldl_cons, List.foldl_nil]
    omega

/-- C2: for an input of at least four bytes, `ReduceBytes` is the big-endian
unsigned 32-bit reading of its last four bytes, so prepending any prefix does
not change the result. -/
theorem ReduceBytes_last_four_bytes (b : List Byte) (h : 4 ≤ b.length) :
    ReduceBytes b = bigEndian (b.drop (b.length - 4))
      ∧ (∃ b0 b1 b2 b3, b.drop (b.length - 4) = [b0, b1, b2, b3]
          ∧ ReduceBytes b = beUint32 b0 b1 b2 b3)
      ∧ ∀ p : List Byte, ReduceBytes (p ++ b) = ReduceBytes b := by
  have hlen : (b.drop (b.length - 4)).length = 4 := by
    rw [List.length_drop]
    omega
  have hsplit : ReduceBytes b = ReduceBytes (b.drop (b.length - 4)) := by
    conv_lhs => rw [← List.take_append_drop (b.length - 4) b]
    exact ReduceBytes_append_of_four_le _ _ (by omega)
  have hval : ReduceBytes b = bigEndian (b.drop (b.length - 4)) := by
    rw [hsplit, ReduceBytes_eq_bigEndian_of_length_four _ hlen]
  refine ⟨hval, ?_, fun p => ReduceBytes_append_of_four_le p b h⟩
  obtain ⟨b0, b1, b2, b3, hd⟩ := list_length_four _ hlen
  exact ⟨b0, b1, b2, b3, hd, by rw [hval, hd, bigEndian_four]⟩

/-- Witness of C2 on the five bytes `01 00 0d ec 0b`. -/
theorem ReduceBytes_last_four_bytes_witness :
    4 ≤ ([1, 0, 13, 236, 11] : List Byte).length
      ∧ ReduceBytes [1, 0, 13, 236, 11]
          = bigEndian (([1, 0, 13, 236, 11] : List Byte).drop
              (([1, 0, 13, 236, 11] : List Byte).length - 4))
      ∧ ∀ p : List Byte, ReduceBytes (p ++ [1, 0, 13, 236, 11]) = ReduceBytes [1, 0, 13, 236, 11] :=
  ⟨by decide,
    (ReduceBytes_last_four_bytes [1, 0, 13, 236, 11] (by decide)).1,
    (ReduceBytes_last_four_bytes [1, 0, 13, 236, 11] (by decide)).2.2⟩

/-! ## PaddedHex: the digit width -/

theorem bucketCount_eq (max : Nat) (h : max < 2 ^ 32) : bucketCount max = max + 1 := by
  simp only [bucketCount, uint64Size]
  omega

theorem digitWidth_pos (m : Nat) : 1 ≤ digitWidth m := by
  rw [digitWidth]
  split <;> omega

theorem le_pow_digitWidth (m : Nat) : m ≤ 16 ^ digitWidth m := by
  induction m using Nat.strong_induction_on with
  | _ m ih =>
    rw [digitWidth]
    split
    · rename_i hm
      have hrec := ih (m / 16 + m % 16) (by omega)
      rw [pow_succ]
      omega
    · simp only [pow_one]
      omega

theorem widthLoop_snd (m : Nat) (l : Int) (hm : m < 2 ^ 64) :
    (widthLoop m l).2 = l + (digitWidth m : Int) - 1 := by
  induction m using Nat.strong_induction_on generalizing l with
  | _ m ih =>
    rw [widthLoop, digitWidth]
    split
    · rename_i h16
      have hsmall : (m / 16 + m % 16) % uint64Size = m / 16 + m % 16 := by
        apply Nat.mod_eq_of_lt
        simp only [uint64Size]
        omega
      rw [hsmall, ih (m / 16 + m % 16) (by omega) (l + 1) (by omega)]
      push_cast
      ring
    · simp

/-! ## PaddedHex: the digits -/

theorem formatBits_length_le (k : Nat) (u : Nat) (a : List Byte) (hk : 1 ≤ k) (hu : u < 16 ^ k) :
    (formatBits 16 u a).length ≤ a.length + k := by
  induction k generalizing u a with
  | zero => omega
  | succ k ih =>
    rw [formatBits]
    split
    · rename_i h
      have hk1 : 1 ≤ k := by
        rcases Nat.eq_zero_or_pos k with h0 | h0
        · subst h0
          simp at hu
          omega
        · exact h0
      have hdiv : u / 16 < 16 ^ k := by
        rw [pow_succ] at hu
        omega
      have := ih (u / 16) (digits.getD (u % 16) 0 :: a) hk1 hdiv
      simp only [List.length_cons] at this
      omega
    · simp only [List.length_cons]
      omega

theorem FormatUint_length_le (u m : Nat) (hu : u < m) :
    (FormatUint u 16).length ≤ digitWidth m := by
  have hpow : u < 16 ^ digitWidth m := lt_of_lt_of_le hu (le_pow_digitWidth m)
  have := formatBits_length_le (digitWidth m) u [] (digitWidth_pos m) hpow
  simpa [FormatUint] using this

theorem PaddedHex_length_eq (value max : Nat) (hmax : max < 2 ^ 32) :
    (PaddedHex value max).length = digitWidth (max + 1) := by
  have hm := bucketCount_eq max hmax
  have hlt : value % uint64Size % (max + 1) < max + 1 := Nat.mod_lt _ (by omega)
  have hlen := FormatUint_length_le _ _ hlt
  have hw := widthLoop_snd (max + 1) 1 (by omega)
  simp only [PaddedHex, hm, hw, Repeat]
  split
  · rename_i hpos
    simp only [List.length_append, List.length_replicate]
    omega
  · rename_i hneg
    omega

theorem formatBits_length (u : Nat) (a : List Byte) :
    (formatBits 16 u a).length = a.length + hexDigitCount u := by
  induction u using Nat.strong_induction_on generalizing a with
  | _ u ih =>
    rw [formatBits]
    split
    · rename_i h
      rw [ih (u / 16) (by omega)]
      have hlog : Nat.log 16 u = Nat.log 16 (u / 16) + 1 :=
        Nat.log_of_one_lt_of_le (by norm_num) h.2
      simp only [List.length_cons, hexDigitCount, hlog]
      omega
    · rename_i h
      have hlog : Nat.log 16 u = 0 := Nat.log_of_lt (by omega)
      simp only [List.length_cons, hexDigitCount, hlog]

theorem FormatUint_length (u : Nat) : (FormatUint u 16).length = hexDigitCount u := by
  simp [FormatUint, formatBits_length]

theorem digits_lower_hex : ∀ d, d < 16 →
    isLowerHex (digits.getD d 0) = true ∧ hexValue (digits.getD d 0) = d := by
  decide

theorem formatBits_lower_hex (u : Nat) (a : List Byte)
    (ha : ∀ x ∈ a, isLowerHex x = true) :
    ∀ x ∈ formatBits 16 u a, isLowerHex x = true := by
  induction u using Nat.strong_induction_on generalizing a with
  | _ u ih =>
    rw [formatBits]
    split
    · rename_i h
      apply ih (u / 16) (by omega)
      intro x hx
      rcases List.mem_cons.mp hx with rfl | hx
      · exact (digits_lower_hex (u % 16) (Nat.mod_lt _ (by norm_num))).1
      · exact ha x hx
    · rename_i h
      intro x hx
      rcases List.mem_cons.mp hx with rfl | hx
      · exact (digits_lower_hex u (by omega)).1
      · exact ha x hx

theorem parseHex_foldl (r : Nat) (s : List Byte) :
    s.foldl (fun acc x => acc * 16 + hexValue x) r = r * 16 ^ s.length + parseHex s := by
  induction s generalizing r with
  | nil => simp [parseHex]
  | cons x rest ih =>
    simp only [parseHex, List.foldl_cons, List.length_cons]
    rw [ih, ih (0 * 16 + hexValue x)]
    ring

theorem parseHex_cons (x : Byte) (s : List Byte) :
    parseHex (x :: s) = hexValue x * 16 ^ s.length + parseHex s := by
  simp only [parseHex, List.foldl_cons]
  rw [parseHex_foldl]
  simp [parseHex]

theorem parseHex_formatBits (u : Nat) (a : List Byte) :
    parseHex (formatBits 16 u a) = u * 16 ^ a.length + parseHex a := by
  induction u using Nat.strong_induction_on generalizing a with
  | _ u ih =>
    rw [formatBits]
    split
    · rename_i h
      rw [ih (u / 16) (by omega), parseHex_cons,
        (digits_lower_hex (u % 16) (Nat.mod_lt _ (by norm_num))).2]
      simp only [List.length_cons, pow_succ]
      have hu : u = 16 * (u / 16) + u % 16 := (Nat.div_add_mod u 16).symm
      generalize u / 16 = q at hu ⊢
      generalize u % 16 = t at hu ⊢
      subst hu
      ring
    · rename_i h
      rw [parseHex_cons, (digits_lower_hex u (by omega)).2]

theorem parseHex_FormatUint (u : Nat) : parseHex (FormatUint u 16) = u := by
  rw [FormatUint, parseHex_formatBits]
  simp [parseHex]

theorem parseHex_zero_padding (n : Nat) (s : List Byte) :
    parseHex (List.replicate n (48 : Byte) ++ s) = parseHex s := by
  induction n with
  | zero => simp
  | succ n ih =>
    have hzero : hexValue (48 : Byte) = 0 := by decide
    rw [List.replicate_succ, List.cons_append, parseHex_cons, ih, hzero]
    simp

theorem PaddedHex_lower_hex (value max : Nat) :
    ∀ x ∈ PaddedHex value max, isLowerHex x = true := by
  have hdigits := formatBits_lower_hex (value % uint64Size % bucketCount max) []
    (by simp)
  simp only [PaddedHex, FormatUint, Repeat]
  split
  · intro x hx
    rcases List.mem_append.mp hx with hx | hx
    · rw [(List.mem_replicate.mp hx).2]
      decide
    · exact hdigits x hx
  · exact hdigits

theorem PaddedHex_parse (value max : Nat) (hv : value < 2 ^ 32) (hmax : max < 2 ^ 32) :
    parseHex (PaddedHex value max) = value % (max + 1) := by
  have hval : value % uint64Size = value := by
    apply Nat.mod_eq_of_lt
    simp only [uint64Size]
    omega
  simp only [PaddedHex, bucketCount_eq max hmax, Repeat, hval]
  split
  · rw [parseHex_zero_padding, parseHex_FormatUint]
  · rw [parseHex_FormatUint]

theorem PaddedHex_add_period (value max : Nat) (hmax : max < 2 ^ 32)
    (hv : value + max + 1 < 2 ^ 32) :
    PaddedHex (value + max + 1) max = PaddedHex value max := by
  have h1 : (value + max + 1) % uint64Size = value + max + 1 := by
    apply Nat.mod_eq_of_lt
    simp only [uint64Size]
    omega
  have h2 : value % uint64Size = value := by
    apply Nat.mod_eq_of_lt
    simp only [uint64Size]
    omega
  have h3 : (value + max + 1) % (max + 1) = value % (max + 1) := by
    rw [Nat.add_assoc, Nat.add_mod_right]
  simp only [PaddedHex, bucketCount_eq max hmax, h1, h2, h3]

theorem PaddedHex_test_vectors :
    PaddedHex 0 0 = ascii "0" ∧ PaddedHex 10 15 = ascii "a" ∧ PaddedHex 26 15 = ascii "a"
      ∧ PaddedHex 15 16 = ascii "0f" ∧ PaddedHex 15 4095 = ascii "00f"
      ∧ PaddedHex 4096 4095 = ascii "000" ∧ PaddedHex 10 4096 = ascii "000a"
      ∧ PaddedHex 65535 65536 = ascii "0ffff" ∧ PaddedHex 1048575 1048576 = ascii "0fffff"
      ∧ PaddedHex 4294967295 4294967295 = ascii "ffffffff" := by
  simp [PaddedHex, bucketCount, FormatUint, formatBits, widthLoop, uint64Size, Repeat]
  decide

/-- C5: for `uint32` arguments the length of `PaddedHex(v, max)` is exactly the
digit width that the iterative rule gives for the bucket count `max + 1`; the
unpadded hexadecimal rendering of `v mod (max + 1)` has as many characters as
that number has hex digits, and this is never more than the width. -/
theorem PaddedHex_length_is_digit_width (v max : Nat) (_hv : v < 2 ^ 32) (hmax : max < 2 ^ 32) :
    (PaddedHex v max).length = digitWidth (max + 1)
      ∧ (FormatUint (v % (max + 1)) 16).length = hexDigitCount (v % (max + 1))
      ∧ hexDigitCount (v % (max + 1)) ≤ digitWidth (max + 1) := by
  refine ⟨PaddedHex_length_eq v max hmax, FormatUint_length _, ?_⟩
  rw [← FormatUint_length]
  exact FormatUint_length_le _ _ (Nat.mod_lt _ (by omega))

/-- Witness of C5 at `v = 15`, `max = 4095`. -/
theorem PaddedHex_length_is_digit_width_witness :
    15 < 2 ^ 32 ∧ 4095 < 2 ^ 32
      ∧ (PaddedHex 15 4095).length = digitWidth (4095 + 1)
      ∧ (FormatUint (15 % (4095 + 1)) 16).length = hexDigitCount (15 % (4095 + 1))
      ∧ hexDigitCount (15 % (4095 + 1)) ≤ digitWidth (4095 + 1) :=
  ⟨by norm_num, by norm_num,
    PaddedHex_length_is_digit_width 15 4095 (by norm_num) (by norm_num)⟩

/-- C6: for `uint32` arguments every character of `PaddedHex(v, max)` is one of
`0`-`9`, `a`-`f`, and the string read as a base-16 numeral is `v mod (max + 1)`,
which is at most `max`. -/
theorem PaddedHex_is_lower_hex_of_bucket (v max : Nat) (hv : v < 2 ^ 32) (hmax : max < 2 ^ 32) :
    (PaddedHex v max).all isLowerHex = true
      ∧ parseHex (PaddedHex v max) = v % (max + 1)
      ∧ v % (max + 1) ≤ max := by
  refine ⟨List.all_eq_true.mpr (PaddedHex_lower_hex v max), PaddedHex_parse v max hv hmax, ?_⟩
  have hlt : v % (max + 1) < max + 1 := Nat.mod_lt v (by omega)
  omega

/-- Witness of C6 at `v = 4096`, `max = 4095`. -/
theorem PaddedHex_is_lower_hex_of_bucket_witness :
    4096 < 2 ^ 32 ∧ 4095 < 2 ^ 32
      ∧ (PaddedHex 4096 4095).all isLowerHex = true
      ∧ parseHex (PaddedHex 4096 4095) = 4096 % (4095 + 1)
      ∧ 4096 % (4095 + 1) ≤ 4095 :=
  ⟨by norm_num, by norm_num,
    PaddedHex_is_lower_hex_of_bucket 4096 4095 (by norm_num) (by norm_num)⟩

/-- C7: `PaddedHex` is periodic in its value with period `max + 1`: whenever
`v + (max + 1)` is still a `uint32`, `PaddedHex(v + max + 1, max)` equals
`PaddedHex(v, max)`. -/
theorem PaddedHex_periodic (v max : Nat) (h : v + (max + 1) ≤ 4294967295) :
    PaddedHex (v + max + 1) max = PaddedHex v max :=
  PaddedHex_add_period v max (by omega) (by omega)

/-- Witness of C7 at `v = 10`, `max = 15`. -/
theorem PaddedHex_periodic_witness :
    10 + (15 + 1) ≤ 4294967295 ∧ PaddedHex (10 + 15 + 1) 15 = PaddedHex 10 15 :=
  ⟨by norm_num, PaddedHex_periodic 10 15 (by norm_num)⟩

/-! ## HashConfig.Apply -/

theorem Apply_eq_foldOptions (c : HashConfig) (opts : List HashOption) :
    c.Apply opts = some (foldOptions c opts) := by
  induction opts generalizing c with
  | nil => rfl
  | cons opt rest ih =>
    cases opt with
    | none => simpa [HashConfig.Apply, foldOptions] using ih c
    | some f => simpa [HashConfig.Apply, foldOptions] using ih (f c)

theorem foldOptions_dropNil (c : HashConfig) (opts : List HashOption) :
    foldOptions c (dropNil opts) = foldOptions c opts := by
  induction opts generalizing c with
  | nil => rfl
  | cons opt rest ih =>
    cases opt with
    | none => simpa [foldOptions, dropNil] using ih c
    | some f => simpa [foldOptions, dropNil] using ih (f c)

theorem foldOptions_replicate_none (c : HashConfig) (n : Nat) :
    foldOptions c (List.replicate n none) = c := by
  induction n with
  | zero => rfl
  | succ n ih => simp [foldOptions, List.replicate_succ]

theorem Hash_eq_hashLoop (c : HashConfig) (path : List Segment) (opts : List HashOption) :
    c.Hash path opts = hashLoop (foldOptions c opts) 0 path [] := by
  simp [HashConfig.Hash, Apply_eq_foldOptions]

/-! ## HashConfig.Hash -/

theorem hashLoop_eq_joined (c : HashConfig) (f : List Byte → List Byte) (hf : c.HashFunc = some f)
    (i : Nat) (path : List Segment) (buffer : List Byte) :
    hashLoop c i path buffer
      = some (buffer ++ ((path.enumFrom i).map fun entry =>
          (if 0 < entry.1 then c.Separator else []) ++ render c f entry.2).flatten) := by
  induction path generalizing i buffer with
  | nil => simp [hashLoop]
  | cons seg rest ih =>
    rcases Nat.eq_zero_or_pos i with hi | hi
    · subst hi
      cases hseg : seg.Hash <;>
        simp [hashLoop, hseg, hf, ih, render, List.enumFrom_cons]
    · have hne : i ≠ 0 := by omega
      cases hseg : seg.Hash <;>
        simp [hashLoop, hseg, hf, ih, render, List.enumFrom_cons, hi, hne]

theorem hashLoop_raw (c : HashConfig) (i : Nat) (path : List Segment) (buffer : List Byte)
    (hraw : ∀ seg ∈ path, seg.Hash = false) :
    hashLoop c (i + 1) path buffer
      = some (buffer ++ (path.map fun seg => c.Separator ++ seg.Key).flatten) := by
  induction path generalizing i buffer with
  | nil => simp [hashLoop]
  | cons seg rest ih =>
    have hseg : seg.Hash = false := hraw seg (List.mem_cons_self _ _)
    have hrest : ∀ s ∈ rest, s.Hash = false := fun s hs => hraw s (List.mem_cons_of_mem _ hs)
    simp [hashLoop, hseg, ih (i + 1) _ hrest]

theorem intercalate_cons (sep k : List Byte) (ks : List (List Byte)) :
    List.intercalate sep (k :: ks) = k ++ (ks.map fun x => sep ++ x).flatten := by
  induction ks generalizing k with
  | nil => simp [List.intercalate]
  | cons k' ks ih =>
    have hstep : List.intercalate sep (k :: k' :: ks)
        = k ++ sep ++ List.intercalate sep (k' :: ks) := by
      simp [List.intercalate]
    rw [hstep, ih]
    simp

theorem hashLoop_raw_intercalate (c : HashConfig) (path : List Segment)
    (hraw : ∀ seg ∈ path, seg.Hash = false) :
    hashLoop c 0 path [] = some (List.intercalate c.Separator (path.map Segment.Key)) := by
  cases path with
  | nil => simp [hashLoop, List.intercalate]
  | cons seg rest =>
    have hseg : seg.Hash = false := hraw seg (List.mem_cons_self _ _)
    have hrest : ∀ s ∈ rest, s.Hash = false := fun s hs => hraw s (List.mem_cons_of_mem _ hs)
    have hloop := hashLoop_raw c 0 rest seg.Key hrest
    simp only [Nat.zero_add] at hloop
    simp [hashLoop, hseg, hloop, intercalate_cons, List.map_map, Function.comp_def]

/-- C3: with a digest function `f` and no options, `Hash` returns the
concatenation of the segments' renderings, the separator being written before
each segment of positive index and nowhere else; a segment renders as its key
when `Hash` is false and as `PaddedHex(ReduceBytes(f(Key)), Max)` otherwise. -/
theorem Hash_is_joined_renderings (c : HashConfig) (f : List Byte → List Byte)
    (path : List Segment) (hf : c.HashFunc = some f) :
    c.Hash path [] = some (joined c f path) := by
  rw [Hash_eq_hashLoop]
  have hc : foldOptions c [] = c := rfl
  rw [hc, hashLoop_eq_joined c f hf]
  simp [joined, List.enum]

/-- Witness of C3 on a hashed segment followed by a raw one. -/
theorem Hash_is_joined_renderings_witness :
    (HashConfig.mk [47] 4095 (some fun key => key)).HashFunc = some (fun key => key)
      ∧ (HashConfig.mk [47] 4095 (some fun key => key)).Hash
          [⟨[118], true⟩, ⟨[118], false⟩] []
        = some (joined (HashConfig.mk [47] 4095 (some fun key => key)) (fun key => key)
            [⟨[118], true⟩, ⟨[118], false⟩]) :=
  ⟨rfl, Hash_is_joined_renderings _ _ _ rfl⟩

/-- C4: when no segment is hashed, `Hash` returns the keys joined by the
separator (between consecutive segments only), whatever the digest function and
`Max` are; the empty path gives the empty byte sequence. -/
theorem Hash_raw_segments_is_join (c : HashConfig) (path : List Segment)
    (hraw : ∀ seg ∈ path, seg.Hash = false) :
    c.Hash path [] = some (List.intercalate c.Separator (path.map Segment.Key))
      ∧ (∀ (max : Nat) (hashFunc : Option (List Byte → List Byte)),
          (HashConfig.mk c.Separator max hashFunc).Hash path [] = c.Hash path [])
      ∧ c.Hash [] [] = some [] := by
  have hmain : ∀ c' : HashConfig,
      c'.Hash path [] = some (List.intercalate c'.Separator (path.map Segment.Key)) := by
    intro c'
    rw [Hash_eq_hashLoop]
    exact hashLoop_raw_intercalate c' path hraw
  refine ⟨hmain c, ?_, rfl⟩
  intro max hashFunc
  rw [hmain c, hmain]

/-- Witness of C4 on the path `some`, `key` of the test suite. -/
theorem Hash_raw_segments_is_join_witness :
    (∀ seg ∈ [Segment.mk (ascii "some") false, Segment.mk (ascii "key") false],
        seg.Hash = false)
      ∧ (HashConfig.mk (ascii "/") 4095 none).Hash
          [Segment.mk (ascii "some") false, Segment.mk (ascii "key") false] []
        = some (List.intercalate (ascii "/")
            ([Segment.mk (ascii "some") false, Segment.mk (ascii "key") false].map Segment.Key)) :=
  ⟨by decide, (Hash_raw_segments_is_join (HashConfig.mk (ascii "/") 4095 none) _ (by decide)).1⟩

theorem Hash_test_vectors :
    (HashConfig.mk (ascii "/") 4095 none).Hash [] [] = some (ascii "")
      ∧ (HashConfig.mk (ascii "/") 4095 none).Hash
          [Segment.mk (ascii "some") false, Segment.mk (ascii "key") false] []
        = some (ascii "some/key") := by
  decide

/-- C8: a nil option is a no-op. `Hash` with an option list equals `Hash` with
the list's nil entries removed, `Apply` never faults on any list (nil entries
are skipped, not called), and `Apply` with only nil entries returns the
configuration unchanged. -/
theorem nil_option_is_noop (c : HashConfig) (path : List Segment) (opts : List HashOption)
    (n : Nat) :
    c.Hash path opts = c.Hash path (dropNil opts)
      ∧ (c.Apply opts).isSome = true
      ∧ c.Apply opts = c.Apply (dropNil opts)
      ∧ c.Apply (List.replicate n none) = some c := by
  refine ⟨?_, ?_, ?_, ?_⟩
  · rw [Hash_eq_hashLoop, Hash_eq_hashLoop, foldOptions_dropNil]
  · rw [Apply_eq_foldOptions]
    rfl
  · rw [Apply_eq_foldOptions, Apply_eq_foldOptions, foldOptions_dropNil]
  · rw [Apply_eq_foldOptions, foldOptions_replicate_none]

/-- C9: options are applied in list order: `Apply` returns the left-to-right
fold of the non-nil options over the configuration, so of two options setting
`Max` the later one wins and `Hash(path, setMax a, setMax b)` equals
`Hash(path, setMax b)`. -/
theorem later_option_overrides (c : HashConfig) (opts : List HashOption) (path : List Segment)
    (a b : Nat) :
    c.Apply opts = some (foldOptions c opts)
      ∧ c.Hash path [setMax a, setMax b] = c.Hash path [setMax b] := by
  refine ⟨Apply_eq_foldOptions c opts, ?_⟩
  rw [Hash_eq_hashLoop, Hash_eq_hashLoop]
  rfl

/-! ## PaddedHex: particular bucket counts -/

theorem PaddedHex_zero_max (v : Nat) : PaddedHex v 0 = ascii "0" := by
  simp [PaddedHex, bucketCount, uint64Size, Nat.mod_one, FormatUint, formatBits, widthLoop]
  decide

theorem digitWidth_of_le (m : Nat) (h : m ≤ 16) : digitWidth m = 1 := by
  rw [digitWidth, if_neg (by omega)]

theorem digitWidth_of_lt (m : Nat) (h : 16 < m) :
    digitWidth m = digitWidth (m / 16 + m % 16) + 1 := by
  rw [digitWidth, if_pos h]

theorem digitWidth_pow (k : Nat) (hk : 1 ≤ k) : digitWidth (16 ^ k) = k := by
  induction k with
  | zero => omega
  | succ k ih =>
    rcases Nat.eq_zero_or_pos k with h0 | hpos
    · subst h0
      exact digitWidth_of_le _ (by norm_num)
    · have hge : 16 ≤ 16 ^ k := by
        calc 16 = 16 ^ 1 := by norm_num
          _ ≤ 16 ^ k := Nat.pow_le_pow_right (by norm_num) hpos
      have hstep : 16 ^ (k + 1) / 16 + 16 ^ (k + 1) % 16 = 16 ^ k := by
        rw [pow_succ]
        omega
      rw [digitWidth_of_lt _ (by rw [pow_succ]; omega), hstep, ih hpos]

theorem digitWidth_two_pow_32 : digitWidth (4294967295 + 1) = 8 := by
  have h := digitWidth_pow 8 (by norm_num)
  norm_num at h ⊢
  exact h

theorem PaddedHex_eq_padding (value max : Nat) (hv : value < 2 ^ 32) (hmax : max < 2 ^ 32) :
    PaddedHex value max
      = List.replicate (digitWidth (max + 1) - (FormatUint (value % (max + 1)) 16).length) 48
          ++ FormatUint (value % (max + 1)) 16 := by
  have hval : value % uint64Size = value := by
    apply Nat.mod_eq_of_lt
    simp only [uint64Size]
    omega
  have hlen := FormatUint_length_le (value % (max + 1)) (max + 1) (Nat.mod_lt _ (by omega))
  have hw := widthLoop_snd (max + 1) 1 (by omega)
  simp only [PaddedHex, bucketCount_eq max hmax, hval, hw, Repeat]
  split
  · rename_i hpos
    congr 2
    omega
  · rename_i hneg
    have hzero : digitWidth (max + 1) - (FormatUint (value % (max + 1)) 16).length = 0 := by
      omega
    rw [hzero]
    rfl

/-- C11: with `Max = 0` there is a single bucket: `PaddedHex(v, 0)` is `"0"` for
every `v`, so under any digest function a hashed segment renders as `"0"` and
`Hash` of a single hashed segment returns `"0"`. -/
theorem single_bucket_renders_zero (v : Nat) (sep key : List Byte)
    (f : List Byte → List Byte) :
    PaddedHex v 0 = ascii "0"
      ∧ render (HashConfig.mk sep 0 (some f)) f ⟨key, true⟩ = ascii "0"
      ∧ (HashConfig.mk sep 0 (some f)).Hash [⟨key, true⟩] [] = some (ascii "0") := by
  refine ⟨PaddedHex_zero_max v, ?_, ?_⟩
  · simp [render, PaddedHex_zero_max]
  · rw [Hash_eq_hashLoop]
    have hc : foldOptions (HashConfig.mk sep 0 (some f)) [] = HashConfig.mk sep 0 (some f) := rfl
    simp [hc, hashLoop, PaddedHex_zero_max]

/-- C12: the bucket count is computed in 64 bits: for `max = 4294967295` it is
`2^32`, not 0, and for every `uint32` `v` the result is the lowercase hex of
`v` itself, left-padded with `0` to exactly 8 characters. -/
theorem PaddedHex_full_range (v : Nat) (hv : v < 2 ^ 32) :
    bucketCount 4294967295 = 2 ^ 32
      ∧ bucketCount 4294967295 ≠ 0
      ∧ PaddedHex v 4294967295
          = List.replicate (8 - (FormatUint v 16).length) 48 ++ FormatUint v 16
      ∧ (PaddedHex v 4294967295).length = 8
      ∧ (PaddedHex v 4294967295).all isLowerHex = true
      ∧ parseHex (PaddedHex v 4294967295) = v := by
  have hmod : v % (4294967295 + 1) = v := Nat.mod_eq_of_lt (by omega)
  have hpad := PaddedHex_eq_padding v 4294967295 hv (by norm_num)
  have hlen := PaddedHex_length_eq v 4294967295 (by norm_num)
  have hparse := PaddedHex_parse v 4294967295 hv (by norm_num)
  rw [digitWidth_two_pow_32] at hpad hlen
  rw [hmod] at hpad hparse
  refine ⟨by decide, by decide, hpad, hlen, ?_, hparse⟩
  exact List.all_eq_true.mpr (PaddedHex_lower_hex v 4294967295)

/-- Witness of C12 at `v = 4294967295`. -/
theorem PaddedHex_full_range_witness :
    4294967295 < 2 ^ 32 ∧ (PaddedHex 4294967295 4294967295).length = 8
      ∧ parseHex (PaddedHex 4294967295 4294967295) = 4294967295 :=
  ⟨by norm_num, (PaddedHex_full_range 4294967295 (by norm_num)).2.2.2.1,
    (PaddedHex_full_range 4294967295 (by norm_num)).2.2.2.2.2⟩

/-! ## The default configuration: proofs -/

theorem ReduceBytes_lt (b : List Byte) : ReduceBytes b < 2 ^ 32 := by
  rw [ReduceBytes_eq_hornerFold]
  exact hornerFold_lt b

theorem digitWidth_4096 : digitWidth (4095 + 1) = 3 := by
  have h := digitWidth_pow 3 (by norm_num)
  norm_num at h ⊢
  exact h

set_option maxRecDepth 100000 in
theorem HashMD5_test_vectors :
    HashMD5 (ascii "") = [212, 29, 140, 217, 143, 0, 178, 4, 233, 128, 9, 152, 236, 248, 66, 126]
      ∧ HashMD5 (ascii "value")
        = [32, 99, 193, 96, 141, 110, 11, 175, 128, 36, 156, 66, 226, 190, 88, 4]
      ∧ HashMD5 [0]
        = [147, 184, 133, 173, 254, 13, 160, 137, 205, 246, 52, 144, 79, 213, 159, 113] := by
  decide

theorem default_bucket_test_vectors :
    PaddedHex (ReduceBytes (HashMD5 (ascii "value"))) 4095 = ascii "804"
      ∧ PaddedHex (ReduceBytes (HashMD5 [0])) 4095 = ascii "f71"
      ∧ PaddedHex (ReduceBytes (HashMD5 [0])) 15 = ascii "1"
      ∧ PaddedHex (ReduceBytes (HashMD5 (ascii ""))) 15 = ascii "e" := by
  obtain ⟨h1, h2, h3⟩ := HashMD5_test_vectors
  have r1 : ReduceBytes [212, 29, 140, 217, 143, 0, 178, 4, 233, 128, 9, 152, 236, 248, 66, 126]
      = 3975692926 := by decide
  have r2 : ReduceBytes [32, 99, 193, 96, 141, 110, 11, 175, 128, 36, 156, 66, 226, 190, 88, 4]
      = 3804125188 := by decide
  have r3 : ReduceBytes
      [147, 184, 133, 173, 254, 13, 160, 137, 205, 246, 52, 144, 79, 213, 159, 113]
      = 1339400049 := by decide
  rw [h1, h2, h3, r1, r2, r3]
  simp [PaddedHex, bucketCount, FormatUint, formatBits, widthLoop, uint64Size, Repeat]
  decide

theorem Hash_hashed_then_raw (sep k1 k2 : List Byte) (max : Nat) (f : List Byte → List Byte) :
    (HashConfig.mk sep max (some f)).Hash [⟨k1, true⟩, ⟨k2, false⟩] []
      = some (PaddedHex (ReduceBytes (f k1)) max ++ sep ++ k2) := by
  simp [HashConfig.Hash, HashConfig.Apply, hashLoop]

theorem Hash_single_hashed (sep k : List Byte) (max : Nat) (f : List Byte → List Byte) :
    (HashConfig.mk sep max (some f)).Hash [⟨k, true⟩] []
      = some (PaddedHex (ReduceBytes (f k)) max) := by
  simp [HashConfig.Hash, HashConfig.Apply, hashLoop]

theorem Hash_single_hashed_setMax (sep k : List Byte) (max a : Nat)
    (f : List Byte → List Byte) (opts : List HashOption) (hopts : dropNil opts = [setMax a]) :
    (HashConfig.mk sep max (some f)).Hash [⟨k, true⟩] opts
      = some (PaddedHex (ReduceBytes (f k)) a) := by
  rw [Hash_eq_hashLoop, ← foldOptions_dropNil, hopts]
  simp [foldOptions, setMax, hashLoop]

theorem Hash_eq_default (path : List Segment) (opts : List HashOption) :
    Hash path opts = (HashConfig.mk (ascii "/") 4095 (some HashMD5)).Hash path opts := by
  unfold Hash DefaultConfig
  rfl

theorem Hash_default_test_vectors :
    Hash [⟨ascii "value", true⟩, ⟨ascii "value", false⟩] [] = some (ascii "804/value")
      ∧ Hash [⟨[0], true⟩] [] = some (ascii "f71")
      ∧ Hash [⟨[0], true⟩] [none, setMax 15] = some (ascii "1")
      ∧ Hash [⟨ascii "", true⟩] [setMax 15] = some (ascii "e") := by
  obtain ⟨h1, h2, h3, h4⟩ := default_bucket_test_vectors
  refine ⟨?_, ?_, ?_, ?_⟩
  · rw [Hash_eq_default, Hash_hashed_then_raw, h1]
    decide
  · rw [Hash_eq_default, Hash_single_hashed, h2]
  · rw [Hash_eq_default, Hash_single_hashed_setMax _ _ _ 15 _ [none, setMax 15] rfl, h3]
  · rw [Hash_eq_default, Hash_single_hashed_setMax _ _ _ 15 _ [setMax 15] rfl, h4]

theorem Hash_eq_joined (c : HashConfig) (f : List Byte → List Byte) (path : List Segment)
    (hf : c.HashFunc = some f) : c.Hash path [] = some (joined c f path) := by
  rw [Hash_eq_hashLoop]
  have hc : foldOptions c [] = c := rfl
  rw [hc, hashLoop_eq_joined c f hf]
  simp [joined, List.enum]

theorem leBytes_length (n x : Nat) : (leBytes n x).length = n := by
  induction n generalizing x with
  | zero => rfl
  | succ n ih => simp [leBytes, ih]

theorem md5Sum_length (b : List Byte) : (md5Sum b).length = 16 := by
  simp only [md5Sum, List.length_append, leBytes_length]

set_option maxRecDepth 100000 in
theorem md5Sum_test_vectors :
    md5Sum (ascii "") = hexBytes "d41d8cd98f00b204e9800998ecf8427e"
      ∧ md5Sum (ascii "a") = hexBytes "0cc175b9c0f1b6a831c399e269772661"
      ∧ md5Sum (ascii "abc") = hexBytes "900150983cd24fb0d6963f7d28e17f72"
      ∧ md5Sum (ascii "message digest") = hexBytes "f96b697d7cb7938d525a2f31aaf161d0"
      ∧ md5Sum (ascii
          "12345678901234567890123456789012345678901234567890123456789012345678901234567890")
        = hexBytes "57edf4a22be3c955ac49da2e2107b67a"
      ∧ md5Sum (ascii "value") = hexBytes "2063c1608d6e0baf80249c42e2be5804"
      ∧ md5Sum [0] = hexBytes "93b885adfe0da089cdf634904fd59f71" := by
  decide

theorem HashMD5_eq_md5Sum : HashMD5 = md5Sum := by
  funext b
  rfl

/-- C13: the package-level `Hash` is `Hash` on the default configuration:
separator `/`, `Max = 4095`, and the digest `HashMD5`, which is MD5 (16 bytes,
with the digests of RFC 1321's test suite). With no options it returns the
renderings joined by `/`, and a hashed segment renders as exactly three
lowercase hex characters that read as `ReduceBytes(MD5(key)) mod 4096`; the
path `value` (hashed), `value` (raw) gives `804/value`. -/
theorem package_Hash_uses_default_config (path : List Segment) (opts : List HashOption)
    (key : List Byte) :
    Hash path opts = (HashConfig.mk (ascii "/") 4095 (some HashMD5)).Hash path opts
      ∧ HashMD5 key = md5Sum key
      ∧ (md5Sum key).length = 16
      ∧ md5Sum (ascii "") = hexBytes "d41d8cd98f00b204e9800998ecf8427e"
      ∧ md5Sum (ascii "abc") = hexBytes "900150983cd24fb0d6963f7d28e17f72"
      ∧ md5Sum (ascii
          "12345678901234567890123456789012345678901234567890123456789012345678901234567890")
        = hexBytes "57edf4a22be3c955ac49da2e2107b67a"
      ∧ md5Sum (ascii "value") = hexBytes "2063c1608d6e0baf80249c42e2be5804"
      ∧ Hash path [] = some (joined (HashConfig.mk (ascii "/") 4095 (some md5Sum)) md5Sum path)
      ∧ render (HashConfig.mk (ascii "/") 4095 (some md5Sum)) md5Sum ⟨key, true⟩
          = PaddedHex (ReduceBytes (md5Sum key)) 4095
      ∧ (PaddedHex (ReduceBytes (md5Sum key)) 4095).length = 3
      ∧ (PaddedHex (ReduceBytes (md5Sum key)) 4095).all isLowerHex = true
      ∧ parseHex (PaddedHex (ReduceBytes (md5Sum key)) 4095) = ReduceBytes (md5Sum key) % 4096
      ∧ ReduceBytes (md5Sum (ascii "value")) % 4096 = 2052
      ∧ Hash [⟨ascii "value", true⟩, ⟨ascii "value", false⟩] [] = some (ascii "804/value")
      ∧ Hash [⟨[0], true⟩] [] = some (ascii "f71") := by
  have hlen := PaddedHex_length_eq (ReduceBytes (md5Sum key)) 4095 (by norm_num)
  rw [digitWidth_4096] at hlen
  obtain ⟨v0, _, v2, _, v4, v5, _⟩ := md5Sum_test_vectors
  have hred : ReduceBytes (hexBytes "2063c1608d6e0baf80249c42e2be5804") % 4096 = 2052 := by
    decide
  refine ⟨Hash_eq_default path opts, rfl, md5Sum_length key, v0, v2, v4, v5, ?_, ?_, hlen, ?_, ?_,
    ?_, Hash_default_test_vectors.1, Hash_default_test_vectors.2.1⟩
  · rw [Hash_eq_default, HashMD5_eq_md5Sum]
    exact Hash_eq_joined _ _ _ rfl
  · simp [render]
  · exact List.all_eq_true.mpr (PaddedHex_lower_hex _ _)
  · exact PaddedHex_parse _ 4095 (ReduceBytes_lt _) (by norm_num)
  · rw [v5]
    exact hred

/-! ## Faults of HashConfig.Hash -/

theorem hashLoop_isSome_of_digest (c : HashConfig) (f : List Byte → List Byte)
    (hf : c.HashFunc = some f) (path : List Segment) :
    ∃ out, hashLoop c 0 path [] = some out :=
  ⟨_, hashLoop_eq_joined c f hf 0 path []⟩

/-- Counterexample to C14: the zero-value configuration, whose `HashFunc` is
nil, faults on a path with one hashed segment, so `Hash` does not return a byte
sequence for every configuration. -/
theorem Hash_nil_digest_faults :
    (HashConfig.mk [] 0 none).Hash [⟨[], true⟩] [] = none
      ∧ ¬ ∀ (c : HashConfig) (path : List Segment) (opts : List HashOption),
          (c.Hash path opts).isSome = true := by
  have hnone : (HashConfig.mk [] 0 none).Hash [⟨[], true⟩] [] = none := rfl
  refine ⟨hnone, ?_⟩
  intro hall
  have h := hall (HashConfig.mk [] 0 none) [⟨[], true⟩] []
  rw [hnone] at h
  exact Bool.false_ne_true h

/-- C14 (amended): `Hash` returns a byte sequence whenever the digest function
in effect after the options is non-nil, whatever bytes that function returns,
and also whenever no segment of the path is hashed; this holds for every
segment list (empty keys included) and every option list. -/
theorem Hash_returns_of_digest_or_raw (c : HashConfig) (path : List Segment)
    (opts : List HashOption)
    (h : (foldOptions c opts).HashFunc.isSome = true ∨ ∀ seg ∈ path, seg.Hash = false) :
    ∃ out, c.Hash path opts = some out := by
  rw [Hash_eq_hashLoop]
  rcases h with hset | hraw
  · obtain ⟨f, hf⟩ := Option.isSome_iff_exists.mp hset
    exact hashLoop_isSome_of_digest _ f hf path
  · exact ⟨_, hashLoop_raw_intercalate _ path hraw⟩

/-- Witness of C14 (amended): a digest function returning the empty byte
sequence, a hashed segment with an empty key, and a nil option. -/
theorem Hash_returns_of_digest_or_raw_witness :
    ((foldOptions (HashConfig.mk [47] 15 (some fun _ => [])) [none]).HashFunc.isSome = true
        ∨ ∀ seg ∈ [Segment.mk [] true], seg.Hash = false)
      ∧ ∃ out, (HashConfig.mk [47] 15 (some fun _ => [])).Hash [Segment.mk [] true] [none]
          = some out :=
  ⟨Or.inl rfl, Hash_returns_of_digest_or_raw _ _ _ (Or.inl rfl)⟩

/-! ## ReduceBytes: the modulus and the accumulator -/

/-- Counterexample to C15: on four bytes `ff` the code returns 4294967295, while
the big-endian value modulo 4294967295 is 0. -/
theorem ReduceBytes_not_mod_max_uint32 :
    ReduceBytes [255, 255, 255, 255] = 4294967295
      ∧ bigEndian [255, 255, 255, 255] % 4294967295 = 0
      ∧ ReduceBytes [255, 255, 255, 255] ≠ bigEndian [255, 255, 255, 255] % 4294967295 := by
  decide

/-- C15 (amended): `ReduceBytes(b)` is `b`, read as a big-endian unsigned
integer, modulo `4294967295 + 1 = 2^32`, the number of `uint32` values. -/
theorem ReduceBytes_mod_uint32_range (b : List Byte) :
    ReduceBytes b = bigEndian b % (4294967295 + 1) := by
  have hrange : (4294967295 + 1 : Nat) = 2 ^ 32 := by norm_num
  rw [hrange, ReduceBytes_eq_hornerFold, hornerFold_eq_bigEndian_mod]

/-! ## PaddedHex: the digit width against the minimal width -/

theorem lt_pow_hexDigitCount (n : Nat) : n < 16 ^ hexDigitCount n :=
  Nat.lt_pow_succ_log_self (by norm_num) n

theorem hexDigitCount_le_of_lt_pow (n w : Nat) (hw : 1 ≤ w) (h : n < 16 ^ w) :
    hexDigitCount n ≤ w := by
  unfold hexDigitCount
  rcases Nat.eq_zero_or_pos n with h0 | hpos
  · subst h0
    simpa using hw
  · have := Nat.log_lt_of_lt_pow (Nat.pos_iff_ne_zero.mp hpos) h
    omega

theorem hexDigitCount_pow_sub_one (k : Nat) (hk : 1 ≤ k) : hexDigitCount (16 ^ k - 1) = k := by
  obtain ⟨j, rfl⟩ : ∃ j, k = j + 1 := ⟨k - 1, by omega⟩
  unfold hexDigitCount
  have hpos : 0 < 16 ^ j := pow_pos (by norm_num) j
  have hlog : Nat.log 16 (16 ^ (j + 1) - 1) = j := by
    apply Nat.log_eq_of_pow_le_of_lt_pow
    · rw [pow_succ]
      omega
    · rw [pow_succ]
      omega
  rw [hlog]

theorem digitWidth_le_of_le_pow (e m : Nat) (h : m ≤ 16 ^ e + 14) : digitWidth m ≤ e + 1 := by
  induction e generalizing m with
  | zero =>
    have hm : m ≤ 16 := by
      simp only [pow_zero] at h
      omega
    exact le_of_eq (digitWidth_of_le m hm)
  | succ e ih =>
    rcases Nat.lt_or_ge 16 m with hgt | hle
    · rw [digitWidth_of_lt m hgt]
      have hstep : m / 16 + m % 16 ≤ 16 ^ e + 14 := by
        rw [pow_succ] at h
        omega
      have := ih _ hstep
      omega
    · rw [digitWidth_of_le m hle]
      omega

theorem digitWidth_succ_bounds (max : Nat) :
    hexDigitCount max ≤ digitWidth (max + 1)
      ∧ digitWidth (max + 1) ≤ hexDigitCount max + 1 := by
  constructor
  · apply hexDigitCount_le_of_lt_pow _ _ (digitWidth_pos _)
    have := le_pow_digitWidth (max + 1)
    omega
  · apply digitWidth_le_of_le_pow
    have := lt_pow_hexDigitCount max
    omega

theorem hexDigitCount_le_eight (max : Nat) (hmax : max < 2 ^ 32) : hexDigitCount max ≤ 8 :=
  hexDigitCount_le_of_lt_pow max 8 (by norm_num) (by norm_num; omega)

theorem digitWidth_255 : digitWidth 255 = 3 := by
  have h15 : digitWidth 15 = 1 := digitWidth_of_le 15 (by norm_num)
  have e30 : 30 / 16 + 30 % 16 = 15 := by norm_num
  have e255 : 255 / 16 + 255 % 16 = 30 := by norm_num
  rw [digitWidth_of_lt 255 (by norm_num), e255, digitWidth_of_lt 30 (by norm_num), e30, h15]

/-- C16: for `max = 16^k - 1` with `1 ≤ k ≤ 8` the bucket count is `16^k`, and
for every `uint32` `v` the result `PaddedHex(v, 16^k - 1)` has exactly `k`
characters, which is the number of hex digits of `max`. -/
theorem PaddedHex_power_of_16_width (k v : Nat) (hk1 : 1 ≤ k) (hk8 : k ≤ 8) (_hv : v < 2 ^ 32) :
    bucketCount (16 ^ k - 1) = 16 ^ k
      ∧ (PaddedHex v (16 ^ k - 1)).length = k
      ∧ hexDigitCount (16 ^ k - 1) = k := by
  have hpos : 0 < 16 ^ k := pow_pos (by norm_num) k
  have hle : 16 ^ k ≤ 16 ^ 8 := Nat.pow_le_pow_right (by norm_num) hk8
  have hmax : 16 ^ k - 1 < 2 ^ 32 := by
    norm_num at hle ⊢
    omega
  have hsucc : 16 ^ k - 1 + 1 = 16 ^ k := by omega
  refine ⟨?_, ?_, hexDigitCount_pow_sub_one k hk1⟩
  · rw [bucketCount_eq _ hmax, hsucc]
  · rw [PaddedHex_length_eq v _ hmax, hsucc, digitWidth_pow k hk1]

/-- Witness of C16 at `k = 3` (`max = 4095`), `v = 15`. -/
theorem PaddedHex_power_of_16_width_witness :
    1 ≤ 3 ∧ 3 ≤ 8 ∧ 15 < 2 ^ 32 ∧ (PaddedHex 15 (16 ^ 3 - 1)).length = 3 :=
  ⟨by norm_num, by norm_num, by norm_num,
    (PaddedHex_power_of_16_width 3 15 (by norm_num) (by norm_num) (by norm_num)).2.1⟩

/-- C17: the digit-width rule is not the minimal hex width: for `max = 254` the
bucket count 255 is not a power of 16 and `PaddedHex(254, 254)` is `0fe`, three
characters, although 254 has two hex digits. -/
theorem digit_width_not_minimal :
    PaddedHex 254 254 = ascii "0fe"
      ∧ (PaddedHex 254 254).length = 3
      ∧ digitWidth (254 + 1) = 3
      ∧ hexDigitCount 254 = 2
      ∧ (∀ k : Nat, 254 + 1 ≠ 16 ^ k)
      ∧ ∃ max : Nat, max < 2 ^ 32 ∧ (∀ k : Nat, max + 1 ≠ 16 ^ k)
          ∧ hexDigitCount max < (PaddedHex max max).length := by
  have hstr : PaddedHex 254 254 = ascii "0fe" := by
    simp [PaddedHex, bucketCount, FormatUint, formatBits, widthLoop, uint64Size, Repeat]
    decide
  have hlen : (PaddedHex 254 254).length = 3 := by
    rw [hstr]
    decide
  have hdig : hexDigitCount 254 = 2 := by
    have := hexDigitCount_le_of_lt_pow 254 2 (by norm_num) (by norm_num)
    have hlog : Nat.log 16 254 = 1 :=
      Nat.log_eq_of_pow_le_of_lt_pow (by norm_num) (by norm_num)
    simp [hexDigitCount, hlog]
  have hpow : ∀ k : Nat, 254 + 1 ≠ 16 ^ k := by
    intro k hk
    rcases Nat.lt_or_ge k 2 with hlt | hge
    · interval_cases k <;> simp at hk
    · have : 16 ^ 2 ≤ 16 ^ k := Nat.pow_le_pow_right (by norm_num) hge
      norm_num at this
      omega
  exact ⟨hstr, hlen, digitWidth_255, hdig, hpow, 254, by norm_num, hpow,
    by rw [hdig, hlen]; norm_num⟩

/-- C20: the digit width is within one of minimal: for `uint32` arguments, with
`d` the number of hex digits of `max` (1 for `max = 0`), the length of
`PaddedHex(v, max)` is `d` or `d + 1`, and never exceeds 9. -/
theorem PaddedHex_length_within_one (v max : Nat) (_hv : v < 2 ^ 32) (hmax : max < 2 ^ 32) :
    ((PaddedHex v max).length = hexDigitCount max
        ∨ (PaddedHex v max).length = hexDigitCount max + 1)
      ∧ (PaddedHex v max).length ≤ 9
      ∧ hexDigitCount 0 = 1 := by
  have hlen := PaddedHex_length_eq v max hmax
  have hb := digitWidth_succ_bounds max
  have h8 := hexDigitCount_le_eight max hmax
  refine ⟨?_, ?_, by simp [hexDigitCount]⟩
  · omega
  · omega

/-- Witness of C20 at `v = 7`, `max = 4294967294`, where the length is 9. -/
theorem PaddedHex_length_within_one_witness :
    7 < 2 ^ 32 ∧ 4294967294 < 2 ^ 32
      ∧ ((PaddedHex 7 4294967294).length = hexDigitCount 4294967294
        ∨ (PaddedHex 7 4294967294).length = hexDigitCount 4294967294 + 1)
      ∧ (PaddedHex 7 4294967294).length ≤ 9 :=
  ⟨by norm_num, by norm_num,
    (PaddedHex_length_within_one 7 4294967294 (by norm_num) (by norm_num)).1,
    (PaddedHex_length_within_one 7 4294967294 (by norm_num) (by norm_num)).2.1⟩

/-! ## ReduceBytes: the accumulator stays within 64 bits -/

theorem maxUint32_eq : (0 + uint32Size - 1) % uint32Size = 4294967295 := by
  decide

theorem reduceStep_max_eq (r : Nat) (x : Byte) :
    reduceStep 4294967295 r x = (r * 256 + x.val) % 2 ^ 32 := by
  rw [← maxUint32_eq]
  exact reduceStep_eq r x

theorem reduceStepExact_max_eq (r : Nat) (x : Byte) :
    reduceStepExact 4294967295 r x = (r * 256 + x.val) % 2 ^ 32 := by
  simp only [reduceStepExact]
  omega

theorem reduceLoop_eq_exact (r : Nat) (b : List Byte) :
    reduceLoop 4294967295 r b = reduceLoopExact 4294967295 r b := by
  induction b generalizing r with
  | nil => rfl
  | cons x rest ih =>
    simp only [reduceLoop, reduceLoopExact, reduceStep_max_eq, reduceStepExact_max_eq, ih]

theorem reduceTrace_lt (r : Nat) (b : List Byte) (hr : r < 2 ^ 32) :
    (reduceTrace 4294967295 r b).all (fun acc => decide (acc < 2 ^ 32)) = true := by
  induction b generalizing r with
  | nil => simpa [reduceTrace] using hr
  | cons x rest ih =>
    have hnext : reduceStep 4294967295 r x < 2 ^ 32 := by
      rw [reduceStep_max_eq]
      exact Nat.mod_lt _ (by norm_num)
    have hrest := ih _ hnext
    simp only [reduceTrace, List.all_cons, hrest, Bool.and_true]
    simpa using hr

theorem ReduceBytes_eq_reduceLoop (b : List Byte) :
    ReduceBytes b = reduceLoop 4294967295 0 b % 2 ^ 32 := by
  simp only [ReduceBytes]
  rw [maxUint32_eq]
  rfl

theorem reduceLoop_lt (r : Nat) (b : List Byte) (hr : r < 2 ^ 32) :
    reduceLoop 4294967295 r b < 2 ^ 32 := by
  rw [← maxUint32_eq, reduceLoop_eq_foldl]
  exact hornerFold_foldl_lt r b hr

/-- C18: the 64-bit accumulator of `ReduceBytes` never overflows. On entry to
every iteration the accumulator is below `2^32`; from such a value the product
`r * 256` and the sum with the byte stay below `2^64`, the step with wrapping
`uint64` arithmetic equals the step over unbounded integers and is again below
`2^32`; so the whole loop, and `ReduceBytes`, equal the unbounded computation. -/
theorem ReduceBytes_accumulator_no_overflow (b : List Byte) (r : Nat) (x : Byte)
    (hr : r < 2 ^ 32) :
    (reduceTrace 4294967295 0 b).all (fun acc => decide (acc < 2 ^ 32)) = true
      ∧ r * (256 % (4294967295 + 1)) < 2 ^ 64
      ∧ r * (256 % (4294967295 + 1)) % (4294967295 + 1) + x.val % (4294967295 + 1) < 2 ^ 64
      ∧ reduceStep 4294967295 r x = reduceStepExact 4294967295 r x
      ∧ reduceStep 4294967295 r x < 2 ^ 32
      ∧ reduceLoop 4294967295 0 b = reduceLoopExact 4294967295 0 b
      ∧ ReduceBytes b = reduceLoopExact 4294967295 0 b := by
  have hx := x.isLt
  refine ⟨reduceTrace_lt 0 b (by norm_num), by omega, by omega, ?_, ?_,
    reduceLoop_eq_exact 0 b, ?_⟩
  · rw [reduceStep_max_eq, reduceStepExact_max_eq]
  · rw [reduceStep_max_eq]
    exact Nat.mod_lt _ (by norm_num)
  · rw [ReduceBytes_eq_reduceLoop, ← reduceLoop_eq_exact]
    exact Nat.mod_eq_of_lt (reduceLoop_lt 0 b (by norm_num))

/-- Witness of C18 at the accumulator `2^32 - 1`, the byte 255 and the input of
the test suite made of seventeen bytes `ff`. -/
theorem ReduceBytes_accumulator_no_overflow_witness :
    4294967295 < 2 ^ 32
      ∧ reduceStep 4294967295 4294967295 255 = reduceStepExact 4294967295 4294967295 255
      ∧ ReduceBytes (List.replicate 17 255)
          = reduceLoopExact 4294967295 0 (List.replicate 17 255) :=
  ⟨by norm_num,
    (ReduceBytes_accumulator_no_overflow (List.replicate 17 255) 4294967295 255
      (by norm_num)).2.2.2.1,
    (ReduceBytes_accumulator_no_overflow (List.replicate 17 255) 4294967295 255
      (by norm_num)).2.2.2.2.2.2⟩

/-! ## PaddedHex: termination of the width loop -/

theorem widthLoop_of_le (m : Nat) (l : Int) (h : m ≤ 16) : widthLoop m l = (m, l) := by
  rw [widthLoop, if_neg (by omega)]

theorem widthLoop_of_lt (m : Nat) (l : Int) (h : 16 < m) :
    widthLoop m l = widthLoop ((m / 16 + m % 16) % uint64Size) (l + 1) := by
  rw [widthLoop, if_pos h]

theorem width_step_eq (m : Nat) (hm : m < 2 ^ 64) :
    (m / 16 + m % 16) % uint64Size = m / 16 + m % 16 := by
  apply Nat.mod_eq_of_lt
  simp only [uint64Size]
  omega

theorem widthLoop_fst_bounds (m : Nat) (l : Int) (h1 : 1 ≤ m) (hm : m < 2 ^ 64) :
    1 ≤ (widthLoop m l).1 ∧ (widthLoop m l).1 ≤ 16 := by
  induction m using Nat.strong_induction_on generalizing l with
  | _ m ih =>
    rcases Nat.lt_or_ge 16 m with hgt | hle
    · rw [widthLoop_of_lt m l hgt, width_step_eq m hm]
      exact ih (m / 16 + m % 16) (by omega) (l + 1) (by omega) (by omega)
    · rw [widthLoop_of_le m l hle]
      exact ⟨h1, hle⟩

theorem widthLoopFuel_eq (fuel m : Nat) (l : Int) (hm : m < 2 ^ 64)
    (hfuel : digitWidth m ≤ fuel + 1) :
    widthLoopFuel fuel m l = some (widthLoop m l) := by
  induction fuel generalizing m l with
  | zero =>
    rcases Nat.lt_or_ge 16 m with hgt | hle
    · have hpos := digitWidth_pos (m / 16 + m % 16)
      rw [digitWidth_of_lt m hgt] at hfuel
      omega
    · rw [widthLoop_of_le m l hle, widthLoopFuel, if_neg (by omega)]
  | succ fuel ih =>
    rcases Nat.lt_or_ge 16 m with hgt | hle
    · rw [digitWidth_of_lt m hgt] at hfuel
      rw [widthLoop_of_lt m l hgt, widthLoopFuel, if_pos hgt, width_step_eq m hm]
      exact ih (m / 16 + m % 16) (l + 1) (by omega) (by omega)
    · rw [widthLoop_of_le m l hle, widthLoopFuel, if_neg (by omega)]

/-- C19: the width loop of `PaddedHex` terminates for every bucket count `m` in
`1..2^32`: an iteration strictly decreases `m`, the loop exits after at most 8
iterations, and at exit `1 ≤ m ≤ 16`. -/
theorem width_loop_terminates (m : Nat) (l : Int) (h1 : 1 ≤ m) (h2 : m ≤ 2 ^ 32) :
    (m ≤ 16 ∨ (m / 16 + m % 16) % uint64Size < m)
      ∧ widthLoopFuel 8 m l = some (widthLoop m l)
      ∧ widthLoopFuel m m l = some (widthLoop m l)
      ∧ 1 ≤ (widthLoop m l).1
      ∧ (widthLoop m l).1 ≤ 16 := by
  have hm : m < 2 ^ 64 := by omega
  have hw : digitWidth m ≤ 8 + 1 := digitWidth_le_of_le_pow 8 m (by norm_num; omega)
  have hb := widthLoop_fst_bounds m l h1 hm
  refine ⟨?_, widthLoopFuel_eq 8 m l hm hw, ?_, hb.1, hb.2⟩
  · rcases Nat.lt_or_ge 16 m with hgt | hle
    · right
      rw [width_step_eq m hm]
      omega
    · exact Or.inl hle
  · apply widthLoopFuel_eq m m l hm
    have hpow := digitWidth_le_of_le_pow 8 m (by norm_num; omega)
    rcases Nat.lt_or_ge m 8 with hlt | hge
    · rw [digitWidth_of_le m (by omega)]
      omega
    · omega

/-- Witness of C19 at the largest bucket count `2^32`. -/
theorem width_loop_terminates_witness :
    1 ≤ 4294967296 ∧ 4294967296 ≤ 2 ^ 32
      ∧ widthLoopFuel 8 4294967296 1 = some (widthLoop 4294967296 1)
      ∧ (widthLoop 4294967296 1).1 ≤ 16 :=
  ⟨by norm_num, by norm_num,
    (width_loop_terminates 4294967296 1 (by norm_num) (by norm_num)).2.1,
    (width_loop_terminates 4294967296 1 (by norm_num) (by norm_num)).2.2.2.2⟩

/-! ## Calls through memory: proofs -/

theorem applyAt_keeps (opts : List RefOption) (q : Nat) (μ μ' : Memory)
    (hopts : ∀ opt ∈ opts, writesOnlyTarget opt) (happly : applyAt μ q opts = some μ') :
    μ.arrays <+: μ'.arrays
      ∧ μ.configs.length ≤ μ'.configs.length
      ∧ ∀ j, j < μ.configs.length → j ≠ q → μ'.configs[j]? = μ.configs[j]? := by
  induction opts generalizing μ with
  | nil =>
    simp only [applyAt, Option.some.injEq] at happly
    subst happly
    exact ⟨List.prefix_refl _, le_refl _, fun _ _ _ => rfl⟩
  | cons opt rest ih =>
    have hrest : ∀ o ∈ rest, writesOnlyTarget o := fun o ho => hopts o (List.mem_cons_of_mem _ ho)
    cases opt with
    | none =>
      simp only [applyAt, Option.isNone_none, if_true] at happly
      exact ih μ hrest happly
    | some f =>
      simp only [applyAt, Option.isNone_some, Bool.false_eq_true, if_false] at happly
      obtain ⟨harr, hlen, hcells⟩ := hopts (some f) (List.mem_cons_self _ _) f rfl μ q
      obtain ⟨harr', hlen', hcells'⟩ := ih (f μ q) hrest happly
      refine ⟨harr.trans harr', le_trans hlen hlen', ?_⟩
      intro j hj hne
      rw [hcells' j (lt_of_lt_of_le hj hlen) hne, hcells j hj hne]

theorem readSlice_of_prefix (α β : Arrays) (s : Slice) (hpre : α <+: β)
    (hvalid : s.len = 0 ∨ s.array < α.length) : readSlice β s = readSlice α s := by
  rcases hvalid with hzero | hlt
  · simp [readSlice, hzero]
  · obtain ⟨t, rfl⟩ := hpre
    simp [readSlice, List.getD_eq_getElem?_getD, List.getElem?_append_left hlt]

theorem hashCall_no_options (μ : Memory) (p : Nat) (c : HashConfigRef) (path : List Segment)
    (hp : μ.configs[p]? = some c) :
    (hashCall μ p path []).map Prod.snd = hashLoop (c.view μ.arrays) 0 path [] := by
  have hcell : (μ.configs ++ [c])[μ.configs.length]? = some c := by simp
  simp [hashCall, hp, applyAt, hcell, Function.comp_def]

theorem hashCall_returns (μ μ' : Memory) (p : Nat) (c : HashConfigRef) (path : List Segment)
    (opts : List RefOption) (out : List Byte) (hp : μ.configs[p]? = some c)
    (hcall : hashCall μ p path opts = some (μ', out)) :
    applyAt { arrays := μ.arrays, configs := μ.configs ++ [c] } μ.configs.length opts
      = some μ' := by
  simp only [hashCall, hp] at hcall
  cases happly : applyAt { arrays := μ.arrays, configs := μ.configs ++ [c] }
      μ.configs.length opts with
  | none => simp [happly] at hcall
  | some μ'' =>
    simp only [happly] at hcall
    cases hcell : μ''.configs[μ.configs.length]? with
    | none => simp [hcell] at hcall
    | some c' =>
      simp only [hcell] at hcall
      obtain ⟨_, _, hpair⟩ := Option.map_eq_some'.mp hcall
      rw [(Prod.mk.inj hpair).1]

theorem writesOnlyTarget_none : writesOnlyTarget none := by
  intro f hf
  cases hf

theorem writesOnlyTarget_setSeparator (x : Byte) : writesOnlyTarget (setSeparator x) := by
  intro f hf μ p
  cases hf
  cases hcell : μ.configs[p]? with
  | none => simp [hcell]
  | some c =>
    simp only [hcell]
    refine ⟨List.prefix_append _ _, by simp, ?_⟩
    intro j _ hne
    simp [List.getElem?_set, Ne.symm hne]

/-- Counterexample to C10: the base configuration has separator `/`; a call
with the option `c.Separator[0] = '-'` writes through the backing array that
the receiver's copy shares with the base, so afterwards the base's separator
bytes are `-` and a later `Hash` of `a`, `b` with no options returns `a-b`
where it returned `a/b` before. -/
theorem Hash_option_write_reaches_base :
    (hashCall slashMemory 0 pathAB []).map Prod.snd = some (ascii "a/b")
      ∧ (hashCall slashMemory 0 pathAB [writeSeparator 45]).map
          (fun r => readSlice r.1.arrays ⟨0, 0, 1⟩) = some (ascii "-")
      ∧ ((hashCall slashMemory 0 pathAB [writeSeparator 45]).bind
          fun r => (hashCall r.1 0 pathAB []).map Prod.snd) = some (ascii "a-b")
      ∧ ¬ ∀ (μ μ' : Memory) (p : Nat) (path : List Segment) (opts : List RefOption)
            (out : List Byte), hashCall μ p path opts = some (μ', out) →
            (hashCall μ' p path []).map Prod.snd = (hashCall μ p path []).map Prod.snd := by
  have hbefore : (hashCall slashMemory 0 pathAB []).map Prod.snd = some (ascii "a/b") := by
    decide
  have hcall : hashCall slashMemory 0 pathAB [writeSeparator 45]
      = some (⟨[ascii "-"], [slashConfig, slashConfig]⟩, ascii "a-b") := by
    rfl
  have hafter :
      (hashCall ⟨[ascii "-"], [slashConfig, slashConfig]⟩ 0 pathAB []).map Prod.snd
        = some (ascii "a-b") := by
    decide
  refine ⟨hbefore, ?_, ?_, ?_⟩
  · rw [hcall]
    decide
  · rw [hcall]
    exact hafter
  · intro hall
    have h := hall _ _ 0 pathAB [writeSeparator 45] _ hcall
    rw [hafter, hbefore] at h
    exact absurd h (by decide)

/-- C10 (amended): `Hash` leaves the base configuration as it was whenever
every option writes only the configuration it is handed and memory it
allocates itself. When `c.Hash(path, opts...)` on the configuration in cell `p`
then returns, cell `p` and every cell that existed before hold the same fields
(slice header of `Separator`, `Max`, `HashFunc`), every byte array that existed
is unchanged, so the base has the separator bytes it had, and a later call
with no options returns what it would have returned before. -/
theorem Hash_keeps_base_without_foreign_writes (μ μ' : Memory) (p : Nat) (c : HashConfigRef)
    (path : List Segment) (opts : List RefOption) (out : List Byte)
    (hp : μ.configs[p]? = some c)
    (hvalid : c.Separator.len = 0 ∨ c.Separator.array < μ.arrays.length)
    (hopts : ∀ opt ∈ opts, writesOnlyTarget opt)
    (hcall : hashCall μ p path opts = some (μ', out)) :
    μ'.configs[p]? = some c
      ∧ μ'.configs.take μ.configs.length = μ.configs
      ∧ μ.arrays <+: μ'.arrays
      ∧ c.view μ'.arrays = c.view μ.arrays
      ∧ (hashCall μ' p path []).map Prod.snd = (hashCall μ p path []).map Prod.snd := by
  have happly := hashCall_returns μ μ' p c path opts out hp hcall
  obtain ⟨harr, hlen, hcells⟩ := applyAt_keeps opts _ _ μ' hopts happly
  simp only [List.length_append, List.length_singleton] at hlen hcells
  have hlt : p < μ.configs.length := by
    by_contra hge
    rw [List.getElem?_eq_none (by omega)] at hp
    cases hp
  have hold : ∀ j, j < μ.configs.length → μ'.configs[j]? = μ.configs[j]? := by
    intro j hj
    rw [hcells j (by omega) (by omega), List.getElem?_append_left hj]
  have hp' : μ'.configs[p]? = some c := by rw [hold p hlt, hp]
  have hview : c.view μ'.arrays = c.view μ.arrays := by
    simp only [HashConfigRef.view, readSlice_of_prefix _ _ _ harr hvalid]
  refine ⟨hp', ?_, harr, hview, ?_⟩
  · apply List.ext_getElem?
    intro j
    rcases Nat.lt_or_ge j μ.configs.length with hj | hj
    · rw [List.getElem?_take_of_lt hj, hold j hj]
    · rw [List.getElem?_eq_none (by simp; omega), List.getElem?_eq_none hj]
  · rw [hashCall_no_options μ' p c path hp', hashCall_no_options μ p c path hp, hview]

/-- Witness of C10 (amended): a nil option and an option that assigns a newly
allocated separator `-`; the call returns `a-b` and the base keeps `/`. -/
theorem Hash_keeps_base_without_foreign_writes_witness :
    slashMemory.configs[0]? = some slashConfig
      ∧ (∀ opt ∈ [none, setSeparator 45], writesOnlyTarget opt)
      ∧ hashCall slashMemory 0 pathAB [none, setSeparator 45]
          = some (⟨[ascii "/", ascii "-"],
                    [slashConfig, { Separator := ⟨1, 0, 1⟩, Max := 4095, HashFunc := none }]⟩,
                  ascii "a-b")
      ∧ (hashCall ⟨[ascii "/", ascii "-"],
              [slashConfig, { Separator := ⟨1, 0, 1⟩, Max := 4095, HashFunc := none }]⟩
            0 pathAB []).map Prod.snd
          = (hashCall slashMemory 0 pathAB []).map Prod.snd :=
  have hopts : ∀ opt ∈ [none, setSeparator 45], writesOnlyTarget opt := by
    intro opt hopt
    rcases List.mem_cons.mp hopt with rfl | hopt
    · exact writesOnlyTarget_none
    · rw [List.mem_singleton.mp hopt]
      exact writesOnlyTarget_setSeparator 45
  have hcall : hashCall slashMemory 0 pathAB [none, setSeparator 45]
      = some (⟨[ascii "/", ascii "-"],
                [slashConfig, { Separator := ⟨1, 0, 1⟩, Max := 4095, HashFunc := none }]⟩,
              ascii "a-b") := rfl
  ⟨rfl, hopts, hcall,
    (Hash_keeps_base_without_foreign_writes slashMemory _ 0 _ pathAB _ _ rfl
      (Or.inr (by decide)) hopts hcall).2.2.2.2⟩

end S3kv
